import Mathlib

/-!
# Verification of the devito DLE loop-optimization backend

Shallow embedding of the Devito Loop Engine (DLE) rewrite passes
(`devito/dle/rewriters.py`), the elemental-function call machinery
(`devito/ir/iet/efunc.py`) and the halo-exchange optimizer, together with
proofs about the claims of the specification.

Machine integers do not occur: all the quantities involved (loop bounds,
steps, shapes, paddings) are Python ints, embedded as `Int`/`Nat`.
-/

namespace Devito

/-! ## Loop blocking: iteration ranges (`AdvancedRewriter._loop_blocking`)

`rewriters.py` lines 271-296.  Each blockable Iteration `i` contributes a
pair of `(min, max, step)` triples:

    maxb = i.symbolic_max - (i.symbolic_size % bi.dim.step)
    ranges.append(((i.symbolic_min, maxb, bi.dim.step),
                   (maxb + 1, i.symbolic_max, i.symbolic_max - maxb)))

and the calls are enumerated by `itertools.product(*ranges)`.
-/

/-- A blockable loop axis: inclusive bounds `lo`/`hi` (devito's
`symbolic_min`/`symbolic_max`) and the tile size `step` of the associated
`BlockDimension`. -/
structure Axis where
  lo : Int
  hi : Int
  step : Int
deriving DecidableEq, Repr

/-- Modelled from the spec: `Iteration.symbolic_size` (the class is not part
of the sources under scrutiny) is the extent of the inclusive iteration range,
`symbolic_max - symbolic_min + 1`; this is fixed by the spec's worked example,
where the domain `[0,100)` (`lo = 0`, `hi = 99`) with step 16 has interior
max `95`, forcing `size = 100`. -/
def symbolicSize (a : Axis) : Int := a.hi - a.lo + 1

/-- `maxb = i.symbolic_max - (i.symbolic_size % bi.dim.step)`. -/
def maxb (a : Axis) : Int := a.hi - symbolicSize a % a.step

/-- The two `(min, max, step)` triples appended to `ranges` for one axis:
the interior range and the remainder range. -/
def axisRanges (a : Axis) : List (Int × Int × Int) :=
  [(a.lo, maxb a, a.step), (maxb a + 1, a.hi, a.hi - maxb a)]

/-- `itertools.product(*ranges)`: one entry per call to the outlined
elemental function, each entry choosing, axis by axis, either the interior
or the remainder triple.  The first axis varies slowest, and for each axis
the interior triple precedes the remainder triple, exactly as in
`product`. -/
def blockCalls : List Axis → List (List (Int × Int × Int))
  | [] => [[]]
  | a :: rest => (axisRanges a).flatMap fun r => (blockCalls rest).map fun c => r :: c

/-- A call covers the point `p` when every coordinate lies inside the
corresponding `(min, max, _)` range of the call. -/
def coversB : List (Int × Int × Int) → List Int → Bool
  | [], [] => true
  | (m, mx, _) :: c, x :: p => decide (m ≤ x) && decide (x ≤ mx) && coversB c p
  | _, _ => false

/-- Membership of a point in the original (pre-blocking) iteration domain. -/
def inDomainB : List Axis → List Int → Bool
  | [], [] => true
  | a :: rest, x :: p => decide (a.lo ≤ x) && decide (x ≤ a.hi) && inDomainB rest p
  | _, _ => false

/-- The remainder of `symbolic_size` by the step is in `[0, step)` and at
most `symbolic_size` whenever the span is non-negative. -/
lemma emod_facts (a : Axis) (hstep : 1 ≤ a.step) (hspan : a.lo ≤ a.hi + 1) :
    0 ≤ symbolicSize a % a.step ∧ symbolicSize a % a.step < a.step ∧
      symbolicSize a % a.step ≤ symbolicSize a := by
  have hpos : (0 : Int) < a.step := by omega
  have h0 : 0 ≤ symbolicSize a % a.step := Int.emod_nonneg _ (by omega)
  have h1 : symbolicSize a % a.step < a.step := Int.emod_lt_of_pos _ hpos
  have hsz : 0 ≤ symbolicSize a := by unfold symbolicSize; omega
  refine ⟨h0, h1, ?_⟩
  rcases lt_or_le (symbolicSize a) a.step with h | h
  · rw [Int.emod_eq_of_lt hsz h]
  · omega

/-- Per-axis case split: a coordinate is covered by exactly one of the two
ranges of an axis iff it lies in `[lo, hi]`, and by none otherwise. -/
lemma axis_countP (a : Axis) (hstep : 1 ≤ a.step) (hspan : a.lo ≤ a.hi + 1)
    (x : Int) :
    (axisRanges a).countP (fun r => decide (r.1 ≤ x) && decide (x ≤ r.2.1)) =
      if a.lo ≤ x ∧ x ≤ a.hi then 1 else 0 := by
  obtain ⟨h0, h1, h2⟩ := emod_facts a hstep hspan
  have hsz : symbolicSize a = a.hi - a.lo + 1 := rfl
  simp only [axisRanges, List.countP_cons, List.countP_nil, maxb,
    Bool.and_eq_true, decide_eq_true_eq]
  split_ifs <;> omega

/-- Counting covering calls distributes multiplicatively over the head axis. -/
lemma countP_blockCalls_cons (a : Axis) (rest : List Axis) (x : Int)
    (p : List Int) :
    (blockCalls (a :: rest)).countP (fun c => coversB c (x :: p)) =
      (axisRanges a).countP (fun r => decide (r.1 ≤ x) && decide (x ≤ r.2.1)) *
        (blockCalls rest).countP (fun c => coversB c p) := by
  have key : ∀ (b0 : Bool) (l : List (List (Int × Int × Int)))
      (q : List (Int × Int × Int) → Bool),
      l.countP (fun c => b0 && q c) = (if b0 = true then 1 else 0) * l.countP q := by
    intro b0 l q
    cases b0 <;> simp
  have hpiece : ∀ r : Int × Int × Int,
      ((blockCalls rest).map (fun c => r :: c)).countP
          (fun c => coversB c (x :: p)) =
        (if (decide (r.1 ≤ x) && decide (x ≤ r.2.1)) = true then 1 else 0) *
          (blockCalls rest).countP (fun c => coversB c p) := by
    rintro ⟨m, mx, b⟩
    rw [List.countP_map]
    exact key (decide (m ≤ x) && decide (x ≤ mx)) (blockCalls rest)
      (fun c => coversB c p)
  simp only [blockCalls, axisRanges]
  rw [List.flatMap_cons, List.flatMap_cons, List.flatMap_nil, List.append_nil,
    List.countP_append, hpiece, hpiece]
  simp only [List.countP_cons, List.countP_nil]
  ring

/-- Exact-cover count: for step ≥ 1 and non-negative span on every axis, a
point of the original domain is covered by exactly one of the `2^k`
enumerated calls, and a point outside the domain by none. -/
lemma countP_blockCalls (axes : List Axis)
    (hax : ∀ a ∈ axes, 1 ≤ a.step ∧ a.lo ≤ a.hi + 1) :
    ∀ p : List Int, p.length = axes.length →
      (blockCalls axes).countP (fun c => coversB c p) =
        if inDomainB axes p = true then 1 else 0 := by
  induction axes with
  | nil =>
    intro p hp
    rw [List.length_nil, List.length_eq_zero] at hp
    subst hp
    simp [blockCalls, coversB, inDomainB, List.countP_cons]
  | cons a rest ih =>
    intro p hp
    rcases p with _ | ⟨x, p⟩
    · simp at hp
    have hrest : ∀ b ∈ rest, 1 ≤ b.step ∧ b.lo ≤ b.hi + 1 := by
      intro b hb; exact hax b (List.mem_cons_of_mem _ hb)
    obtain ⟨hstep, hspan⟩ := hax a (List.mem_cons_self _ _)
    rw [countP_blockCalls_cons, axis_countP a hstep hspan,
      ih hrest p (by simpa using hp)]
    simp only [inDomainB, Bool.and_eq_true, decide_eq_true_eq]
    by_cases hx : a.lo ≤ x ∧ x ≤ a.hi <;>
      by_cases hd : inDomainB rest p = true <;>
      simp [hx, hd]

/-- `2^k` calls are enumerated. -/
lemma length_blockCalls (axes : List Axis) :
    (blockCalls axes).length = 2 ^ axes.length := by
  induction axes with
  | nil => simp [blockCalls]
  | cons a rest ih =>
    simp [blockCalls, axisRanges, ih]
    ring

/-- An exact-multiple span makes the remainder range `[maxb+1, hi]` empty:
`maxb = hi`, so no integer lies in it. -/
lemma remainder_empty_of_exact (a : Axis) (h : symbolicSize a % a.step = 0) :
    maxb a = a.hi ∧ ∀ x : Int, ¬ (maxb a + 1 ≤ x ∧ x ≤ a.hi) := by
  unfold maxb
  rw [h]
  refine ⟨by omega, ?_⟩
  intro x
  omega

/-! ### The blockability gate (`rewriters.py` lines 231-247) -/

/-- The flags of one loop of an Iteration tree that matter to the gate. -/
structure LoopDesc where
  parallel : Bool
  vectorizable : Bool
  axis : Axis
deriving DecidableEq, Repr

/-- A candidate Iteration tree, outer loop first: `rootSequential` is
`tree.root.is_Sequential`, `perfect` is `IsPerfectIteration().visit(root)`,
and `loops` are the nested loops in outer-to-inner order. -/
structure TreeDesc where
  rootSequential : Bool
  perfect : Bool
  loops : List LoopDesc
deriving DecidableEq, Repr

/-- `iterations = [i for i in tree if i.is_Parallel]`, optionally dropping
the VECTORIZABLE ones when `exclude_innermost` is set. -/
def parallelIterations (excludeInnermost : Bool) (t : TreeDesc) : List LoopDesc :=
  if excludeInnermost then
    (t.loops.filter (fun i => i.parallel)).filter (fun i => !i.vectorizable)
  else
    t.loops.filter (fun i => i.parallel)

/-- The gate of `_loop_blocking`: skip single-loop candidates, non-perfect
nests, and nests not embedded in a SEQUENTIAL loop (unless `blockalways`);
otherwise return the axes of the loops that get blocked. -/
def blockableAxes (excludeInnermost ignoreHeuristic : Bool) (t : TreeDesc) :
    Option (List Axis) :=
  if (parallelIterations excludeInnermost t).length ≤ 1 then none
  else if !t.perfect then none
  else if !t.rootSequential && !ignoreHeuristic then none
  else some ((parallelIterations excludeInnermost t).map (fun i => i.axis))

/-- C1. For every perfectly nested tree of `k ≥ 2` PARALLEL loops embedded
in a SEQUENTIAL outer loop, the loop-blocking pass emits exactly `2^k` calls
to the outlined elemental function, where per blocked axis the interior
range is `[min, max − (size mod step)]` and the remainder range is
`[interiorMax+1, max]`; for every tile step ≥ 1 and every (non-negative)
domain span, each point of the original iteration domain is covered by
exactly one of the `2^k` calls and no point outside it is covered, and an
exact-multiple span makes the remainder range empty, contributing zero
iterations. -/
theorem loop_blocking_coverage (excl heur : Bool) (t : TreeDesc)
    (axes : List Axis) (hgate : blockableAxes excl heur t = some axes)
    (hax : ∀ a ∈ axes, 1 ≤ a.step ∧ a.lo ≤ a.hi + 1) :
    2 ≤ axes.length
    ∧ (blockCalls axes).length = 2 ^ axes.length
    ∧ (∀ a ∈ axes, axisRanges a =
        [(a.lo, a.hi - symbolicSize a % a.step, a.step),
         (a.hi - symbolicSize a % a.step + 1, a.hi,
          a.hi - (a.hi - symbolicSize a % a.step))])
    ∧ (∀ p : List Int, p.length = axes.length →
        (blockCalls axes).countP (fun c => coversB c p) =
          if inDomainB axes p = true then 1 else 0)
    ∧ (∀ a ∈ axes, symbolicSize a % a.step = 0 →
        maxb a = a.hi ∧ ∀ x : Int, ¬ (maxb a + 1 ≤ x ∧ x ≤ a.hi)) := by
  refine ⟨?_, length_blockCalls axes, ?_, countP_blockCalls axes hax, ?_⟩
  · unfold blockableAxes at hgate
    split_ifs at hgate with h1 h2 h3
    have hlen : axes.length = (parallelIterations excl t).length := by
      have h := Option.some.inj hgate
      rw [← h, List.length_map]
    omega
  · intro a _
    simp [axisRanges, maxb]
  · intro a _ h
    exact remainder_empty_of_exact a h

/-- Concrete blockable tree used to witness C1: two PARALLEL loops over
`[0, 99]` with tile step 16, inside a SEQUENTIAL outer loop (the spec's
worked example, domain `[0,100)`). -/
def blockingExample : TreeDesc :=
  { rootSequential := true
    perfect := true
    loops := [{ parallel := true, vectorizable := false, axis := ⟨0, 99, 16⟩ },
              { parallel := true, vectorizable := false, axis := ⟨0, 99, 16⟩ }] }

theorem loop_blocking_coverage_witness :
    (blockCalls [(⟨0, 99, 16⟩ : Axis), ⟨0, 99, 16⟩]).countP
        (fun c => coversB c [50, 97]) = 1 := by
  have h := (loop_blocking_coverage true false blockingExample
      [⟨0, 99, 16⟩, ⟨0, 99, 16⟩] (by decide) (by decide)).2.2.2.1
      [50, 97] (by decide)
  rw [h]
  decide

/-! ### The call sequence replacing the blocked nest

After enumerating the `2^k` calls (`body`), `_loop_blocking` outlines `body`
into a second ElementalFunction `f%d` and replaces the root of the original
nest with a plain call to it (`mapper[root] = efunc.make_call()`,
`rewriters.py` line 294).  The `noinline` compiler decoration is computed at
line 223 but never attached to anything. -/

/-- What takes the place of the original nest's root: an optional decoration
wrapping the call (`List(header=..., body=...)` would set it) and the name
of the callee. -/
structure RootReplacement where
  header : Option String
  callee : String
deriving DecidableEq, Repr

/-- `noinline = self._compiler_decoration('noinline', cgen.Comment('noinline?'))`
(`rewriters.py` line 223); the variable is dead afterwards. -/
def noinlineDecoration : String := "noinline?"

/-- `mapper[root] = efunc.make_call()` where `efunc = make_efunc("f%d" % len(mapper), body, ...)`:
a bare ElementalCall, with no header decoration. -/
def loopBlockingRootReplacement (idx : Nat) : RootReplacement :=
  { header := none, callee := "f" ++ toString idx }

/-- Number of axes of a call set to their remainder range. -/
def remainderCount (axes : List Axis) (c : List (Int × Int × Int)) : Nat :=
  ((axes.zip c).filter fun ar =>
    decide (ar.2 = (maxb ar.1 + 1, ar.1.hi, ar.1.hi - maxb ar.1))).length

/-- Zipping a list with its own image pairs each element with its image. -/
lemma zip_map_self {α β : Type _} (f : α → β) (l : List α) :
    l.zip (l.map f) = l.map fun a => (a, f a) := by
  induction l with
  | nil => rfl
  | cons x xs ih => simp [ih]

/-- `blockCalls` is never empty. -/
lemma blockCalls_ne_nil (axes : List Axis) : blockCalls axes ≠ [] := by
  have h := length_blockCalls axes
  intro hc
  rw [hc] at h
  have hp : 0 < 2 ^ axes.length := Nat.pos_pow_of_pos _ (by omega)
  simp at h
  omega

/-- The first enumerated call is the all-interior one. -/
lemma head?_blockCalls (axes : List Axis) :
    (blockCalls axes).head? =
      some (axes.map fun a => (a.lo, maxb a, a.step)) := by
  induction axes with
  | nil => rfl
  | cons a rest ih =>
    simp only [blockCalls, axisRanges, List.flatMap_cons, List.flatMap_nil,
      List.append_nil, List.map_cons]
    rw [List.head?_append_of_ne_nil, List.head?_map, ih]
    · rfl
    · simp only [ne_eq, List.map_eq_nil_iff]
      exact blockCalls_ne_nil rest

/-- C3 fails on the code: with three blocked axes the calls are enumerated
in `itertools.product` order, in which the fourth call has two remainder
axes but the fifth has only one, so the sequence is not ordered by
increasing number of remainder axes; moreover the replacement installed for
the nest's root carries no header decoration, so no "do not inline" hint is
attached (the computed decoration is unused). -/
theorem loop_blocking_call_sequence_counterexample :
    ((blockCalls [(⟨0, 99, 16⟩ : Axis), ⟨0, 99, 16⟩, ⟨0, 99, 16⟩]).map
        (remainderCount [(⟨0, 99, 16⟩ : Axis), ⟨0, 99, 16⟩, ⟨0, 99, 16⟩]))
      = [0, 1, 1, 2, 1, 2, 2, 3]
    ∧ (loopBlockingRootReplacement 0).header ≠ some noinlineDecoration := by
  constructor
  · decide
  · decide

/-- C3, amended. After loop blocking of a nest with `k` blocked axes, the
original nest's root is replaced by a single plain call (no header
decoration — the computed do-not-inline hint is never attached) to a second
outlined function whose body holds the `2^k` elemental calls in
`itertools.product` order: the all-interior call (zero remainder axes)
comes first and the remaining interior/remainder combinations follow in
lexicographic order, which for `k ≥ 3` is not sorted by increasing number
of remainder axes. -/
theorem loop_blocking_call_sequence (axes : List Axis) (idx : Nat)
    (hax : ∀ a ∈ axes, 1 ≤ a.step ∧ a.lo ≤ a.hi) :
    (blockCalls axes).head? = some (axes.map fun a => (a.lo, maxb a, a.step))
    ∧ remainderCount axes (axes.map fun a => (a.lo, maxb a, a.step)) = 0
    ∧ (blockCalls axes).length = 2 ^ axes.length
    ∧ (loopBlockingRootReplacement idx).header = none := by
  refine ⟨head?_blockCalls axes, ?_, length_blockCalls axes, rfl⟩
  unfold remainderCount
  rw [zip_map_self, List.filter_map, List.length_map, List.length_eq_zero,
    List.filter_eq_nil_iff]
  intro a ha
  obtain ⟨hstep, hspan⟩ := hax a ha
  have hsz : symbolicSize a = a.hi - a.lo + 1 := rfl
  simp only [Function.comp, decide_eq_true_eq, Prod.mk.injEq, maxb]
  intro h
  omega

theorem loop_blocking_call_sequence_witness :
    (blockCalls [(⟨0, 99, 16⟩ : Axis), ⟨0, 99, 16⟩]).head? =
      some ([(⟨0, 99, 16⟩ : Axis), ⟨0, 99, 16⟩].map fun a => (a.lo, maxb a, a.step))
    ∧ (loopBlockingRootReplacement 0).header = none :=
  ⟨(loop_blocking_call_sequence [⟨0, 99, 16⟩, ⟨0, 99, 16⟩] 0 (by decide)).1,
   (loop_blocking_call_sequence [⟨0, 99, 16⟩, ⟨0, 99, 16⟩] 0 (by decide)).2.2.2⟩

/-! ## Halo-exchange optimizer (`AdvancedRewriter._optimize_halospots`)

`rewriters.py` lines 153-216.  The halo scheme carried by a HaloSpot is,
per the spec's data model, a mapping from data object to required halo
regions where each entry is tagged USELESS or HOISTABLE; the scheme
operations `project`/`union`/`drop` live outside the sources under
scrutiny and are modelled from the spec. -/

/-- Modelled from the spec: the tag of one halo-scheme entry — USELESS (no
stale data reachable), HOISTABLE (safe to issue earlier), or neither. -/
inductive HaloTag where
  | useless
  | hoistable
  | plain
deriving DecidableEq, Repr

/-- Modelled from the spec: one entry of a halo scheme — the data object
(`fn`, by identifier) it concerns, together with its tag. -/
structure HaloEntry where
  fn : Nat
  tag : HaloTag
deriving DecidableEq, Repr

/-- A halo scheme: the set of its entries. -/
abbrev HaloScheme := Finset HaloEntry

/-- Modelled from the spec: `hs.halo_scheme.project(hs.hoistable)` keeps
exactly the HOISTABLE entries of the scheme. -/
def projectHoistable (s : HaloScheme) : HaloScheme :=
  s.filter fun e => e.tag = HaloTag.hoistable

/-- Modelled from the spec: `hs.halo_scheme.drop(hs.hoistable)` removes the
HOISTABLE entries from the scheme. -/
def dropHoistable (s : HaloScheme) : HaloScheme :=
  s.filter fun e => ¬ e.tag = HaloTag.hoistable

/-- Modelled from the spec: `root.halo_scheme.union(halo_schemes)` unions a
list of schemes into a root scheme. -/
def unionSchemes (root : HaloScheme) (others : List HaloScheme) : HaloScheme :=
  others.foldl (fun acc s => acc ∪ s) root

/-- One group of the hoist-merge rewrite (`rewriters.py` lines 168-175):
given the schemes of the HaloSpots under one enclosing Iteration in
iteration order, the first ("root") takes the union of its own scheme with
the HOISTABLE projection of every later one, and every later one drops its
own HOISTABLE entries. -/
def hoistGroupSchemes : List HaloScheme → List HaloScheme
  | [] => []
  | root :: rest =>
      unionSchemes root (rest.map projectHoistable) :: rest.map dropHoistable

/-- Membership in an iterated union. -/
lemma mem_unionSchemes (root : HaloScheme) (others : List HaloScheme)
    (e : HaloEntry) :
    e ∈ unionSchemes root others ↔ e ∈ root ∨ ∃ s ∈ others, e ∈ s := by
  induction others generalizing root with
  | nil => simp [unionSchemes]
  | cons s ss ih =>
    simp only [unionSchemes, List.foldl_cons] at *
    rw [ih]
    simp only [Finset.mem_union, List.mem_cons]
    constructor
    · rintro (⟨h | h⟩ | ⟨u, hu, he⟩)
      · exact Or.inl h
      · exact Or.inr ⟨s, Or.inl rfl, h⟩
      · exact Or.inr ⟨u, Or.inr hu, he⟩
    · rintro (h | ⟨u, hu | hu, he⟩)
      · exact Or.inl (Or.inl h)
      · exact Or.inl (Or.inr (hu ▸ he))
      · exact Or.inr ⟨u, hu, he⟩

/-- C2. After the hoist-merge rewrite, for every enclosing loop and the
list of communication regions it contains in iteration order with the
first as root: the root's scheme is its original scheme unioned with the
HOISTABLE-projected entries of every later region in the group, and each
later region's scheme is its original scheme with its own HOISTABLE
entries dropped. -/
theorem optimize_halospots_hoist_merge (root : HaloScheme)
    (rest : List HaloScheme) :
    (∀ e : HaloEntry,
        e ∈ (hoistGroupSchemes (root :: rest)).headI ↔
          e ∈ root ∨ ∃ s ∈ rest, e ∈ s ∧ e.tag = HaloTag.hoistable)
    ∧ (hoistGroupSchemes (root :: rest)).tail = rest.map dropHoistable
    ∧ ∀ s ∈ rest, ∀ e : HaloEntry,
        e ∈ dropHoistable s ↔ e ∈ s ∧ ¬ e.tag = HaloTag.hoistable := by
  refine ⟨?_, rfl, ?_⟩
  · intro e
    simp only [hoistGroupSchemes, List.headI]
    rw [mem_unionSchemes]
    simp only [List.mem_map]
    constructor
    · rintro (h | ⟨s, ⟨u, hu, rfl⟩, he⟩)
      · exact Or.inl h
      · obtain ⟨hmem, htag⟩ := Finset.mem_filter.mp he
        exact Or.inr ⟨u, hu, hmem, htag⟩
    · rintro (h | ⟨u, hu, hmem, htag⟩)
      · exact Or.inl h
      · exact Or.inr ⟨projectHoistable u, ⟨u, hu, rfl⟩,
          Finset.mem_filter.mpr ⟨hmem, htag⟩⟩
  · intro s _ e
    simp [dropHoistable, Finset.mem_filter]

/-! ### The full halo-spot optimization pass on trees

The tree vocabulary the pass needs: leaf statements, loops, and
communication regions.  The visitors (`FindNodes`, `MapNodes`,
`FindAdjacent`) and the `Transformer` live outside the sources under
scrutiny; the four rewrite stages below are the recursive readings of the
four `Transformer` applications of `_optimize_halospots`
(`rewriters.py` lines 163-216). -/

/-- The IET fragment visited by the halo-exchange optimizer. -/
inductive IET where
  | expr (id : Nat)
  | iteration (dim : Nat) (affine : Bool) (body : List IET)
  | haloSpot (scheme : HaloScheme) (body : List IET)

/-- Stage 1 (`rewriters.py` lines 163-165): replace every HaloSpot whose
entire scheme is USELESS by its body (`Transformer(..., nested=True)`,
hence the recursion into the spliced body). -/
def dropUselessL : List IET → List IET
  | [] => []
  | IET.expr i :: rest => IET.expr i :: dropUselessL rest
  | IET.iteration d a b :: rest =>
      IET.iteration d a (dropUselessL b) :: dropUselessL rest
  | IET.haloSpot s b :: rest =>
      if ∀ e ∈ s, e.tag = HaloTag.useless then dropUselessL b ++ dropUselessL rest
      else IET.haloSpot s (dropUselessL b) :: dropUselessL rest

/-- The schemes of the HaloSpots appearing directly in a sibling list. -/
def topSchemes (ns : List IET) : List HaloScheme :=
  ns.filterMap fun n =>
    match n with
    | IET.haloSpot s _ => some s
    | _ => none

/-- Reinstall a list of schemes onto the HaloSpots of a sibling list, in
order. -/
def assignSchemes : List IET → List HaloScheme → List IET
  | [], _ => []
  | IET.haloSpot _ b :: rest, s :: ss => IET.haloSpot s b :: assignSchemes rest ss
  | IET.haloSpot s b :: rest, [] => IET.haloSpot s b :: assignSchemes rest []
  | IET.expr i :: rest, ss => IET.expr i :: assignSchemes rest ss
  | IET.iteration d a b :: rest, ss => IET.iteration d a b :: assignSchemes rest ss

/-- Hoist-merge the HaloSpots grouped under one enclosing loop. -/
def hoistBody (ns : List IET) : List IET :=
  assignSchemes ns (hoistGroupSchemes (topSchemes ns))

/-- Stage 2 (`rewriters.py` lines 167-175): for every enclosing Iteration,
rebuild its group of HaloSpots with the hoist-merged schemes.  Modelled
from the spec ("for every (enclosing-loop → list-of-descendant-CommRegions)
grouping"): the `MapNodes` visitor is not part of the sources under
scrutiny, and the grouping is taken at the granularity of the HaloSpots
directly inside each Iteration's body.  Only schemes change; no node is
moved or deleted. -/
def hoistL : List IET → List IET
  | [] => []
  | IET.expr i :: rest => IET.expr i :: hoistL rest
  | IET.iteration d a b :: rest =>
      IET.iteration d a (hoistBody (hoistL b)) :: hoistL rest
  | IET.haloSpot s b :: rest => IET.haloSpot s (hoistL b) :: hoistL rest

/-- Stage 3 (`rewriters.py` lines 177-185): every HaloSpot whose scheme
became empty is replaced by its body. -/
def elideL : List IET → List IET
  | [] => []
  | IET.expr i :: rest => IET.expr i :: elideL rest
  | IET.iteration d a b :: rest => IET.iteration d a (elideL b) :: elideL rest
  | IET.haloSpot s b :: rest =>
      if s = ∅ then elideL b ++ elideL rest
      else IET.haloSpot s (elideL b) :: elideL rest

/-- `all(j.is_Affine for j in FindNodes(Iteration).visit(i))`: every loop
in the given subtrees is AFFINE. -/
def allAffineL : List IET → Bool
  | [] => true
  | IET.expr _ :: rest => allAffineL rest
  | IET.iteration _ a b :: rest => a && allAffineL b && allAffineL rest
  | IET.haloSpot _ b :: rest => allAffineL b && allAffineL rest

/-- Stage 4, adjacency walk (`rewriters.py` lines 200-214): scan a sibling
list; a HaloSpot becomes the current root; a following Iteration whose
loops are all AFFINE is sunk to the end of the root's body; anything else
closes the current root. -/
def sinkFold : Option (HaloScheme × List IET) → List IET → List IET
  | none, [] => []
  | some (s, b), [] => [IET.haloSpot s b]
  | none, IET.haloSpot s b :: rest => sinkFold (some (s, b)) rest
  | some (s0, b0), IET.haloSpot s b :: rest =>
      IET.haloSpot s0 b0 :: sinkFold (some (s, b)) rest
  | some (s0, b0), IET.iteration d a b :: rest =>
      if a && allAffineL b then
        sinkFold (some (s0, b0 ++ [IET.iteration d a b])) rest
      else
        IET.haloSpot s0 b0 :: IET.iteration d a b :: sinkFold none rest
  | none, IET.iteration d a b :: rest => IET.iteration d a b :: sinkFold none rest
  | some (s0, b0), IET.expr i :: rest =>
      IET.haloSpot s0 b0 :: IET.expr i :: sinkFold none rest
  | none, IET.expr i :: rest => IET.expr i :: sinkFold none rest

/-- Stage 4, recursion into bodies before the adjacency walk at each
level. -/
def sinkChildren : List IET → List IET
  | [] => []
  | IET.expr i :: rest => IET.expr i :: sinkChildren rest
  | IET.iteration d a b :: rest =>
      IET.iteration d a (sinkFold none (sinkChildren b)) :: sinkChildren rest
  | IET.haloSpot s b :: rest =>
      IET.haloSpot s (sinkFold none (sinkChildren b)) :: sinkChildren rest

/-- Stage 4 of `_optimize_halospots`. -/
def sinkL (ns : List IET) : List IET := sinkFold none (sinkChildren ns)

/-- The whole `_optimize_halospots` pass: drop USELESS regions, hoist-merge,
elide empty regions, sink adjacent affine nests. -/
def optimizeHalospotsL (ns : List IET) : List IET :=
  sinkL (elideL (hoistL (dropUselessL ns)))

/-- No communication region with an empty scheme occurs in the trees. -/
def noEmptyHS : List IET → Bool
  | [] => true
  | IET.expr _ :: rest => noEmptyHS rest
  | IET.iteration _ _ b :: rest => noEmptyHS b && noEmptyHS rest
  | IET.haloSpot s b :: rest =>
      !decide (s = ∅) && noEmptyHS b && noEmptyHS rest

/-- The statements of the trees, in execution order. -/
def exprSeq : List IET → List Nat
  | [] => []
  | IET.expr i :: rest => i :: exprSeq rest
  | IET.iteration _ _ b :: rest => exprSeq b ++ exprSeq rest
  | IET.haloSpot _ b :: rest => exprSeq b ++ exprSeq rest

lemma exprSeq_append (xs ys : List IET) :
    exprSeq (xs ++ ys) = exprSeq xs ++ exprSeq ys := by
  induction xs with
  | nil => simp [exprSeq]
  | cons n rest ih => cases n <;> simp [exprSeq, ih]

lemma noEmptyHS_append (xs ys : List IET) :
    noEmptyHS (xs ++ ys) = (noEmptyHS xs && noEmptyHS ys) := by
  induction xs with
  | nil => simp [noEmptyHS]
  | cons n rest ih => cases n <;> simp [noEmptyHS, ih, Bool.and_assoc]

lemma exprSeq_dropUselessL (ns : List IET) :
    exprSeq (dropUselessL ns) = exprSeq ns := by
  induction ns using dropUselessL.induct <;>
    simp_all [dropUselessL, exprSeq, exprSeq_append]
  rename_i s b rest h ihb ihr
  rw [if_neg (by push_neg; exact h)]
  simp [exprSeq, ihb, ihr]

lemma exprSeq_assignSchemes (ns : List IET) (ss : List HaloScheme) :
    exprSeq (assignSchemes ns ss) = exprSeq ns := by
  induction ns, ss using assignSchemes.induct <;>
    simp_all [assignSchemes, exprSeq]

lemma exprSeq_hoistBody (ns : List IET) :
    exprSeq (hoistBody ns) = exprSeq ns :=
  exprSeq_assignSchemes ns (hoistGroupSchemes (topSchemes ns))

lemma exprSeq_hoistL (ns : List IET) : exprSeq (hoistL ns) = exprSeq ns := by
  induction ns using hoistL.induct <;>
    simp_all [hoistL, exprSeq, exprSeq_hoistBody]

lemma exprSeq_elideL (ns : List IET) : exprSeq (elideL ns) = exprSeq ns := by
  induction ns using elideL.induct <;>
    simp_all [elideL, exprSeq, exprSeq_append]

/-- The statements pending inside the held root of the adjacency walk. -/
def accExprs : Option (HaloScheme × List IET) → List Nat
  | none => []
  | some (_, b) => exprSeq b

lemma exprSeq_sinkFold (acc : Option (HaloScheme × List IET)) (ns : List IET) :
    exprSeq (sinkFold acc ns) = accExprs acc ++ exprSeq ns := by
  induction acc, ns using sinkFold.induct with
  | case1 => simp [sinkFold, exprSeq, accExprs]
  | case2 s b => simp [sinkFold, exprSeq, accExprs]
  | case3 s b rest ih => simp [sinkFold, exprSeq, accExprs, ih]
  | case4 s0 b0 s b rest ih => simp [sinkFold, exprSeq, accExprs, ih]
  | case5 s0 b0 d a b rest h ih =>
      simp [sinkFold, h, exprSeq, accExprs, ih, exprSeq_append]
  | case6 s0 b0 d a b rest h ih =>
      simp [sinkFold, h, exprSeq, accExprs, ih, exprSeq_append]
  | case7 d a b rest ih => simp [sinkFold, exprSeq, accExprs, ih]
  | case8 s0 b0 i rest ih => simp [sinkFold, exprSeq, accExprs, ih]
  | case9 i rest ih => simp [sinkFold, exprSeq, accExprs, ih]

lemma exprSeq_sinkChildren (ns : List IET) :
    exprSeq (sinkChildren ns) = exprSeq ns := by
  induction ns using sinkChildren.induct <;>
    simp_all [sinkChildren, exprSeq, exprSeq_sinkFold, accExprs]

lemma noEmptyHS_elideL (ns : List IET) : noEmptyHS (elideL ns) = true := by
  induction ns using elideL.induct <;>
    simp_all [elideL, noEmptyHS, noEmptyHS_append]

/-- Well-formedness of the held root: a non-empty scheme over a clean body. -/
def accOK : Option (HaloScheme × List IET) → Bool
  | none => true
  | some (s, b) => !decide (s = ∅) && noEmptyHS b

lemma noEmptyHS_sinkFold : ∀ (acc : Option (HaloScheme × List IET))
    (ns : List IET), accOK acc = true → noEmptyHS ns = true →
    noEmptyHS (sinkFold acc ns) = true := by
  intro acc ns
  induction acc, ns using sinkFold.induct with
  | case1 => intro h1 h2; simp [sinkFold, noEmptyHS]
  | case2 s b =>
      intro h1 h2
      simp only [accOK, Bool.and_eq_true] at h1
      simp [sinkFold, noEmptyHS, h1.1, h1.2]
  | case3 s b rest ih =>
      intro h1 h2
      simp only [noEmptyHS, Bool.and_eq_true] at h2
      simp only [sinkFold]
      exact ih (by simp [accOK, h2.1.1, h2.1.2]) h2.2
  | case4 s0 b0 s b rest ih =>
      intro h1 h2
      simp only [accOK, Bool.and_eq_true] at h1
      simp only [noEmptyHS, Bool.and_eq_true] at h2
      simp only [sinkFold, noEmptyHS, Bool.and_eq_true]
      exact ⟨⟨h1.1, h1.2⟩, ih (by simp [accOK, h2.1.1, h2.1.2]) h2.2⟩
  | case5 s0 b0 d a b rest h ih =>
      intro h1 h2
      simp only [accOK, Bool.and_eq_true] at h1
      simp only [noEmptyHS, Bool.and_eq_true] at h2
      simp only [sinkFold]
      rw [if_pos h]
      exact ih (by simp [accOK, noEmptyHS_append, noEmptyHS, h1.1, h1.2, h2.1]) h2.2
  | case6 s0 b0 d a b rest h ih =>
      intro h1 h2
      simp only [accOK, Bool.and_eq_true] at h1
      simp only [noEmptyHS, Bool.and_eq_true] at h2
      simp only [sinkFold]
      rw [if_neg h]
      simp only [noEmptyHS, Bool.and_eq_true]
      exact ⟨⟨h1.1, h1.2⟩, h2.1, ih rfl h2.2⟩
  | case7 d a b rest ih =>
      intro h1 h2
      simp only [noEmptyHS, Bool.and_eq_true] at h2
      simp only [sinkFold, noEmptyHS, Bool.and_eq_true]
      exact ⟨h2.1, ih rfl h2.2⟩
  | case8 s0 b0 i rest ih =>
      intro h1 h2
      simp only [accOK, Bool.and_eq_true] at h1
      simp only [noEmptyHS, Bool.and_eq_true] at h2
      simp only [sinkFold, noEmptyHS, Bool.and_eq_true]
      exact ⟨⟨h1.1, h1.2⟩, ih rfl h2⟩
  | case9 i rest ih =>
      intro h1 h2
      simp only [noEmptyHS] at h2
      simp only [sinkFold, noEmptyHS]
      exact ih rfl h2

lemma noEmptyHS_sinkChildren : ∀ ns : List IET, noEmptyHS ns = true →
    noEmptyHS (sinkChildren ns) = true := by
  intro ns
  induction ns using sinkChildren.induct <;> intro h <;>
    simp_all [sinkChildren, noEmptyHS]
  all_goals
    exact noEmptyHS_sinkFold none _ rfl (by simp_all)

/-- C4. For every input tree, the halo-exchange optimizer returns a tree
with no empty communication region, and the statements (in particular
those of every elided region's body) keep their original relative order. -/
theorem optimize_halospots_no_empty (ns : List IET) :
    noEmptyHS (optimizeHalospotsL ns) = true
    ∧ exprSeq (optimizeHalospotsL ns) = exprSeq ns := by
  unfold optimizeHalospotsL sinkL
  constructor
  · exact noEmptyHS_sinkFold none _ rfl
      (noEmptyHS_sinkChildren _ (noEmptyHS_elideL _))
  · rw [exprSeq_sinkFold, exprSeq_sinkChildren, exprSeq_elideL,
      exprSeq_hoistL, exprSeq_dropUselessL]
    rfl

/-! ## Remainder elimination (`AdvancedRewriter._minimize_remainders`)

`rewriters.py` lines 339-406, padding stage (lines 357-375): collect the
arrays written in the single VECTORIZABLE loop, compute each one's
trailing-axis padding, and update the padding metadata only when all
computed paddings agree. -/

/-- An array written inside the vectorizable loop: trailing-axis extent
(`i.shape[-1]`), element byte size (`np.dtype(i.dtype).itemsize`), the
SIMD item count known for its dtype (`none` models the `KeyError` of
`get_simd_items`), and the trailing-axis padding metadata pair
(`i._padding[-1]`). -/
structure ArrayW where
  shapeLast : Nat
  itemsize : Nat
  simdItems : Option Nat
  padLo : Nat
  padHi : Nat
deriving DecidableEq, Repr

/-- `get_simd_items(i.dtype)` with the `KeyError` fallback
`simdinfo['avx512f'] / np.dtype(i.dtype).itemsize`; modelled from the
spec's "conservative fallback width" with the AVX512 register size of 64
bytes (the code comments "Fallback to 16" for 4-byte elements). -/
def simdItemsOf (a : ArrayW) : Nat :=
  match a.simdItems with
  | some w => w
  | none => 64 / a.itemsize

/-- `padding.append(simd_items - i.shape[-1] % simd_items)`. -/
def paddingOf (a : ArrayW) : Nat := simdItemsOf a - a.shapeLast % simdItemsOf a

/-- The padding stage: `if len(set(padding)) == 1` the common padding is
added to every written array's trailing-axis upper padding, otherwise the
pass gives up on the nest (`continue`), leaving it unchanged.  Returns the
(possibly updated) arrays and whether padding was applied. -/
def minimizePadding (writes : List ArrayW) : List ArrayW × Bool :=
  if (writes.map paddingOf).dedup.length = 1 then
    (writes.map fun a => { a with padHi := a.padHi + (writes.map paddingOf).headI },
     true)
  else (writes, false)

lemma dedup_length_one_iff (l : List Nat) :
    l.dedup.length = 1 ↔ l ≠ [] ∧ ∀ x ∈ l, ∀ y ∈ l, x = y := by
  constructor
  · intro h
    obtain ⟨p, hp⟩ := List.length_eq_one.mp h
    have hmem : ∀ x ∈ l, x = p := by
      intro x hx
      have hd : x ∈ l.dedup := List.mem_dedup.mpr hx
      rw [hp] at hd
      simpa using hd
    refine ⟨?_, fun x hx y hy => by rw [hmem x hx, hmem y hy]⟩
    intro hnil
    rw [hnil] at hp
    simp at hp
  · rintro ⟨hne, hall⟩
    obtain ⟨x, hx⟩ := List.exists_mem_of_ne_nil l hne
    have hsub : ∀ y ∈ l.dedup, y = x := fun y hy =>
      hall y (List.mem_dedup.mp hy) x hx
    have hxd : x ∈ l.dedup := List.mem_dedup.mpr hx
    have hnd : l.dedup.Nodup := l.nodup_dedup
    rcases hdd : l.dedup with _ | ⟨a, rest⟩
    · exact absurd (hdd ▸ hxd) (by simp)
    · rcases rest with _ | ⟨b, t⟩
      · rfl
      · exfalso
        have ha : a = x := hsub a (by rw [hdd]; simp)
        have hb : b = x := hsub b (by rw [hdd]; simp)
        rw [hdd, List.nodup_cons] at hnd
        exact hnd.1 (by rw [ha, ← hb]; exact List.mem_cons_self b t)

/-- C5 fails as stated on the code: with an 8-item vector width, a trailing
extent of 48 yields padding `8 − 48 % 8 = 8`, not the 0 the claim asserts. -/
theorem minimize_remainders_padding_counterexample :
    paddingOf ⟨48, 4, some 8, 0, 0⟩ = 8 ∧ ¬ paddingOf ⟨48, 4, some 8, 0, 0⟩ = 0 := by
  constructor <;> decide

/-- C5, amended. In the remainder-elimination pass each written array's
computed trailing-axis padding is `vectorWidth − (trailingExtent mod
vectorWidth)`; the padding is applied to every written array's trailing
padding metadata iff the written-array list is non-empty and all computed
paddings agree, and otherwise the nest is left unchanged; with an 8-item
vector width, trailing extents 50 and 48 yield paddings 6 and 8, which are
non-uniform, so the nest is left unchanged. -/
theorem minimize_remainders_padding (writes : List ArrayW) :
    (∀ a ∈ writes, paddingOf a = simdItemsOf a - a.shapeLast % simdItemsOf a)
    ∧ ((minimizePadding writes).2 = true ↔
        writes ≠ [] ∧ ∀ a ∈ writes, ∀ b ∈ writes, paddingOf a = paddingOf b)
    ∧ ((minimizePadding writes).2 = true →
        (minimizePadding writes).1 =
          writes.map fun a => { a with padHi := a.padHi + paddingOf a })
    ∧ ((minimizePadding writes).2 = false → (minimizePadding writes).1 = writes)
    ∧ paddingOf ⟨50, 4, some 8, 0, 0⟩ = 6
    ∧ minimizePadding [⟨50, 4, some 8, 0, 0⟩, ⟨48, 4, some 8, 0, 0⟩] =
        ([⟨50, 4, some 8, 0, 0⟩, ⟨48, 4, some 8, 0, 0⟩], false) := by
  have hiff : ((writes.map paddingOf).dedup.length = 1) ↔
      (writes ≠ [] ∧ ∀ a ∈ writes, ∀ b ∈ writes, paddingOf a = paddingOf b) := by
    rw [dedup_length_one_iff]
    constructor
    · rintro ⟨hne, hall⟩
      refine ⟨by simpa using hne, ?_⟩
      intro a ha b hb
      exact hall _ (List.mem_map_of_mem _ ha) _ (List.mem_map_of_mem _ hb)
    · rintro ⟨hne, hall⟩
      refine ⟨by simpa using hne, ?_⟩
      intro x hx y hy
      obtain ⟨a, ha, rfl⟩ := List.mem_map.mp hx
      obtain ⟨b, hb, rfl⟩ := List.mem_map.mp hy
      exact hall a ha b hb
  refine ⟨fun a _ => rfl, ?_, ?_, ?_, by decide, by decide⟩
  · unfold minimizePadding
    split_ifs with hc
    · simpa using hiff.mp hc
    · simpa using fun hne hall => hc (hiff.mpr ⟨hne, hall⟩)
  · intro happ
    unfold minimizePadding at happ ⊢
    split_ifs at happ with hc
    rw [if_pos hc]
    obtain ⟨hne, hall⟩ := hiff.mp hc
    obtain ⟨w, ws, rfl⟩ := List.exists_cons_of_ne_nil hne
    simp only
    apply List.map_congr_left
    intro a ha
    have hhd : (((w :: ws).map paddingOf).headI) = paddingOf a := by
      simp only [List.map_cons, List.headI]
      exact hall w (by simp) a ha
    rw [hhd]
  · intro happ
    unfold minimizePadding at happ ⊢
    split_ifs at happ with hc
    rw [if_neg hc]

theorem minimize_remainders_padding_witness :
    minimizePadding [⟨50, 4, some 8, 0, 0⟩, ⟨48, 4, some 8, 0, 0⟩] =
      ([⟨50, 4, some 8, 0, 0⟩, ⟨48, 4, some 8, 0, 0⟩], false) :=
  (minimize_remainders_padding
    [⟨50, 4, some 8, 0, 0⟩, ⟨48, 4, some 8, 0, 0⟩]).2.2.2.2.2

/-! ## Elemental calls (`devito/ir/iet/efunc.py`)

`ElementalCall.__init__` (lines 45-62) overlays dynamic-argument values on
the slot positions recorded by the owning ElementalFunction's `_mapper`.
Python exceptions are embedded in `Except`; since the error branch for an
undeclared parameter evaluates `"..." % k` on a format string without any
conversion specifier, Python `%`-formatting itself is modelled. -/

/-- A Python exception relevant here: `ValueError` (the configuration
error the code intends to raise) or `TypeError` (what malformed
`%`-formatting raises). -/
inductive PyErr where
  | valueError (msg : String)
  | typeError (msg : String)
deriving DecidableEq, Repr

/-- Python `%`-formatting over a format string containing only
single-character conversion specifiers (`%d`, `%s`, as used in this file):
each `%x` consumes one argument; leftover arguments raise
`TypeError("not all arguments converted during string formatting")`,
missing ones raise a `TypeError` as well. -/
def pyFormatAux : List Char → List String → Except PyErr String
  | [], [] => Except.ok ""
  | [], _ :: _ =>
      Except.error (PyErr.typeError
        "not all arguments converted during string formatting")
  | '%' :: _ :: _, [] =>
      Except.error (PyErr.typeError "not enough arguments for format string")
  | '%' :: _ :: cs, a :: args => do
      let r ← pyFormatAux cs args
      Except.ok (a ++ r)
  | c :: cs, args => do
      let r ← pyFormatAux cs args
      Except.ok (String.mk [c] ++ r)

/-- `fmt % args` for one or more arguments. -/
def pyFormat (fmt : String) (args : List String) : Except PyErr String :=
  pyFormatAux fmt.toList args

/-- `ElementalFunction._mapper`: each dynamic parameter (by identifier)
mapped to the positional argument slot(s) it occupies. -/
abbrev DynMapper := List (Nat × List Nat)

/-- Python dict lookup `k in self._mapper` / `self._mapper[k]`. -/
def lookupMapper (m : DynMapper) (k : Nat) : Option (List Nat) :=
  (m.find? fun kv => kv.1 == k).map fun kv => kv.2

/-- `for i, j in zip(self._mapper[k], v): arguments[i] = j if incr is False
else (arguments[i] + j)`. -/
def applySlots (arguments : List Int) (slots : List Nat) (vals : List Int)
    (incr : Bool) : List Int :=
  match slots, vals with
  | i :: is, j :: js =>
      applySlots (arguments.set i (if incr then arguments.getD i 0 + j else j))
        is js incr
  | _, _ => arguments

/-- `ElementalCall.__init__`: the argument list produced from the base
arguments, the slot mapper, and the dynamic-argument overlay.  The sanity
checks mirror the source: an undeclared parameter attempts
`raise ValueError("`k` is not a dynamic parameter" % k)` — whose message
formatting itself raises `TypeError`, since the format string holds no
conversion specifier — and a slot-arity mismatch raises the intended
`ValueError`. -/
def elementalCallArguments (arguments : List Int) (mapper : DynMapper)
    (overlay : List (Nat × List Int)) (incr : Bool) : Except PyErr (List Int) :=
  match overlay with
  | [] => Except.ok arguments
  | (k, v) :: rest =>
      match lookupMapper mapper k with
      | none => do
          let msg ← pyFormat "`k` is not a dynamic parameter" [toString k]
          Except.error (PyErr.valueError msg)
      | some slots =>
          if slots.length ≠ v.length then do
            let msg ← pyFormat
              "Expected %d values for dynamic parameter `%s`, given %d"
              [toString slots.length, toString k, toString v.length]
            Except.error (PyErr.valueError msg)
          else
            elementalCallArguments (applySlots arguments slots v incr) mapper
              rest incr

/-- C6: evaluation of the two failure branches.  An overlay naming an
undeclared dynamic parameter makes the construction fail — but with a
`TypeError` escaping the malformed message-formatting expression, not with
the intended `ValueError` configuration error; a slot-arity mismatch fails
with the intended `ValueError`.  (The embedding is pure, so the base
argument list, the mapper and previously built calls are left untouched by
a failed construction.) -/
theorem elemental_call_error_behavior :
    elementalCallArguments [10, 20, 30] [(0, [0, 1]), (7, [2])] [(5, [1])] false =
      Except.error (PyErr.typeError
        "not all arguments converted during string formatting")
    ∧ elementalCallArguments [10, 20, 30] [(0, [0, 1]), (7, [2])] [(0, [1])] false =
      Except.error (PyErr.valueError
        "Expected 2 values for dynamic parameter `0`, given 1") := by
  constructor <;> rfl

/-- `ElementalCall.dynamic_defaults`: each dynamic parameter paired with
the argument values currently occupying its slots. -/
def dynamicDefaults (arguments : List Int) (mapper : DynMapper) :
    List (Nat × List Int) :=
  mapper.map fun kv => (kv.1, kv.2.map fun i => arguments.getD i 0)

lemma list_set_getD (l : List Int) : ∀ i, i < l.length →
    l.set i (l.getD i 0) = l := by
  induction l with
  | nil => intro i h; simp at h
  | cons x xs ih =>
      intro i h
      cases i with
      | zero => simp
      | succ n =>
          have hn := ih n (by simpa using h)
          simpa [List.getD] using hn

lemma applySlots_self (arguments : List Int) : ∀ slots : List Nat,
    (∀ i ∈ slots, i < arguments.length) →
    applySlots arguments slots (slots.map fun i => arguments.getD i 0) false =
      arguments := by
  intro slots
  induction slots with
  | nil => intro _; rfl
  | cons i is ih =>
      intro h
      simp only [List.map_cons, applySlots, if_neg (by simp : ¬False)]
      rw [if_neg (by simp : ¬(false = true))]
      rw [list_set_getD arguments i (h i (by simp))]
      exact ih fun j hj => h j (by simp [hj])

lemma lookupMapper_of_mem (mapper : DynMapper)
    (hkeys : (mapper.map Prod.fst).Nodup) :
    ∀ kv ∈ mapper, lookupMapper mapper kv.1 = some kv.2 := by
  induction mapper with
  | nil => intro kv h; simp at h
  | cons p ps ih =>
      intro kv hkv
      simp only [List.map_cons, List.nodup_cons] at hkeys
      rcases List.mem_cons.mp hkv with rfl | hmem
      · simp [lookupMapper]
      · have hne : ¬ (p.1 == kv.1) = true := by
          simp only [beq_iff_eq]
          intro he
          exact hkeys.1 (he ▸ List.mem_map_of_mem Prod.fst hmem)
        unfold lookupMapper
        have hfind : List.find? (fun kv2 => kv2.1 == kv.1) (p :: ps) =
            List.find? (fun kv2 => kv2.1 == kv.1) ps :=
          List.find?_cons_of_neg _ hne
        rw [hfind]
        exact ih hkeys.2 kv hmem

lemma elementalCallArguments_defaults (arguments : List Int)
    (mapper : DynMapper) : ∀ sub : List (Nat × List Nat),
    (∀ kv ∈ sub, lookupMapper mapper kv.1 = some kv.2 ∧
      ∀ i ∈ kv.2, i < arguments.length) →
    elementalCallArguments arguments mapper
      (sub.map fun kv => (kv.1, kv.2.map fun i => arguments.getD i 0)) false =
      Except.ok arguments := by
  intro sub
  induction sub with
  | nil => intro _; rfl
  | cons kv rest ih =>
      intro h
      obtain ⟨hlk, hbound⟩ := h kv (by simp)
      simp only [List.map_cons, elementalCallArguments, hlk]
      rw [if_neg (by simp)]
      rw [applySlots_self arguments kv.2 hbound]
      exact ih fun kv' h' => h kv' (by simp [h'])

/-- C7. Rebuilding an ElementalCall from its own argument values — with no
overlay (`ec._rebuild(arguments=ec.arguments)` forwards
`dynamic_args_mapper=None`), or overlaying its own `dynamic_defaults` as
the dynamic values — reproduces an argument list identical to the
original, for every mapper with distinct dynamic parameters whose slots
lie within the argument list. -/
theorem elemental_call_rebuild_identity (arguments : List Int)
    (mapper : DynMapper) (hkeys : (mapper.map Prod.fst).Nodup)
    (hslots : ∀ kv ∈ mapper, ∀ i ∈ kv.2, i < arguments.length) :
    elementalCallArguments arguments mapper [] false = Except.ok arguments
    ∧ elementalCallArguments arguments mapper
        (dynamicDefaults arguments mapper) false = Except.ok arguments := by
  refine ⟨rfl, ?_⟩
  unfold dynamicDefaults
  exact elementalCallArguments_defaults arguments mapper mapper fun kv hkv =>
    ⟨lookupMapper_of_mem mapper hkeys kv hkv, hslots kv hkv⟩

theorem elemental_call_rebuild_identity_witness :
    elementalCallArguments [10, 20, 30] [(0, [0, 1]), (7, [2])]
      (dynamicDefaults [10, 20, 30] [(0, [0, 1]), (7, [2])]) false =
      Except.ok [10, 20, 30] :=
  (elemental_call_rebuild_identity [10, 20, 30] [(0, [0, 1]), (7, [2])]
    (by decide) (by decide)).2

/-! ## The custom pipeline (`CustomRewriter.__init__`)

`rewriters.py` lines 466-491.  A comma-separated string is split
(`passes.split(',')` succeeds, so the `except AttributeError` validation
never runs for strings); a tuple/list raises `AttributeError` on `.split`
and is then validated against `passes_mapper`.  A string is represented by
its comma-separated tokens, `.split(',')` recovering them. -/

/-- The keys of `CustomRewriter.passes_mapper`. -/
def passesMapperKeys : List String :=
  ["denormals", "optcomms", "wrapping", "blocking", "openmp", "simd"]

/-- The single DLE configuration error (`devito.exceptions.DLEException`). -/
inductive DLEError where
  | dleException
deriving DecidableEq, Repr

/-- The `passes` constructor argument: a comma-separated string (kept as
its token list) or an already-split tuple/list of names. -/
inductive PassesArg where
  | str (tokens : List String)
  | tup (l : List String)
deriving DecidableEq, Repr

/-- `CustomRewriter.__init__`: the string branch splits and possibly
appends `'openmp'`, with no validation; the tuple branch validates every
name against `passes_mapper` and raises `DLEException` otherwise. -/
def customRewriterInit : PassesArg → Bool → Except DLEError (List String)
  | PassesArg.str tokens, openmpParam =>
      Except.ok
        (if "openmp" ∉ tokens ∧ openmpParam = true then tokens ++ ["openmp"]
         else tokens)
  | PassesArg.tup l, _ =>
      if l.all (fun i => passesMapperKeys.contains i) then Except.ok l
      else Except.error DLEError.dleException

/-- `CustomRewriter.passes_mapper[i]` as used by `_pipeline`: `none` models
the `KeyError` a lookup of an unknown pass name raises at pipeline-run
time. -/
def passesMapperLookup (s : String) : Option String :=
  passesMapperKeys.find? fun k => k == s

/-- C8 fails on the code: a comma-separated string is never validated, so
constructing the rewriter with the unknown pass name "totally-bogus"
succeeds, and the unknown name only fails later, when the pipeline looks
it up (a `KeyError`, not a configuration error). -/
theorem custom_rewriter_counterexample :
    customRewriterInit (PassesArg.str ["totally-bogus"]) false =
      Except.ok ["totally-bogus"]
    ∧ passesMapperLookup "totally-bogus" = none := by
  constructor <;> rfl

/-- C8, amended. A custom pipeline with a pass name outside the registry
fails with `DLEException` at construction only when the pass list is
supplied as a tuple/list; a comma-separated string is split without any
validation, so construction always succeeds for strings and an unknown
name in a string only fails later, when the running pipeline looks the
name up in the pass registry. -/
theorem custom_rewriter_validation (l : List String) (b : Bool)
    (h : ¬ (l.all fun i => passesMapperKeys.contains i) = true) :
    customRewriterInit (PassesArg.tup l) b = Except.error DLEError.dleException
    ∧ (∀ tokens b2, ∃ r,
        customRewriterInit (PassesArg.str tokens) b2 = Except.ok r)
    ∧ passesMapperLookup "totally-bogus" = none := by
  refine ⟨?_, fun tokens b2 => ⟨_, rfl⟩, rfl⟩
  simp only [customRewriterInit]
  rw [if_neg h]

theorem custom_rewriter_validation_witness :
    customRewriterInit (PassesArg.tup ["totally-bogus"]) false =
      Except.error DLEError.dleException :=
  (custom_rewriter_validation ["totally-bogus"] false (by decide)).1

/-! ## The pass pipeline driver (`dle_pass` and `State`)

`rewriters.py` lines 27-62. -/

/-- The auxiliary output of one pass (the `extra` dictionary). -/
structure DLEAux (T : Type) where
  efuncs : List T
  dimensions : List Nat
  input : List Nat
  includes : List String

/-- The running `State`: the main tree plus the four accumulator lists. -/
structure DLEState (T : Type) where
  nodes : T
  efuncs : List T
  dimensions : List Nat
  input : List Nat
  includes : List String

/-- `State.update` (lines 56-62): replace the tree, extend every
accumulator list. -/
def DLEState.update {T : Type} (st : DLEState T) (nodes : T) (aux : DLEAux T) :
    DLEState T :=
  { nodes := nodes
    efuncs := st.efuncs ++ aux.efuncs
    dimensions := st.dimensions ++ aux.dimensions
    input := st.input ++ aux.input
    includes := st.includes ++ aux.includes }

/-- The `dle_pass` wrapper (lines 27-41): run the pass on the main tree,
re-run it on every previously outlined callable in place (each such run's
auxiliary output is discarded: `state.efuncs[i], _ = func(...)`), then
merge the main run's auxiliary output through `State.update`. -/
def dlePass {T : Type} (f : T → T × DLEAux T) (st : DLEState T) : DLEState T :=
  DLEState.update { st with efuncs := st.efuncs.map fun n => (f n).1 }
    (f st.nodes).1 (f st.nodes).2

/-- C9. Every pass invocation applies the pass to the main tree and
independently to every previously outlined callable, replaces the main
tree with the pass's result, and merges the pass's auxiliary outputs into
`State` by list extension only: each accumulator list afterwards is the
previous list (its callables rewritten by the per-callable applications)
extended with the pass's auxiliary entries, never overwritten. -/
theorem dle_pass_state_extension {T : Type} (f : T → T × DLEAux T)
    (st : DLEState T) :
    (dlePass f st).nodes = (f st.nodes).1
    ∧ (dlePass f st).efuncs =
        (st.efuncs.map fun n => (f n).1) ++ (f st.nodes).2.efuncs
    ∧ (dlePass f st).dimensions = st.dimensions ++ (f st.nodes).2.dimensions
    ∧ (dlePass f st).input = st.input ++ (f st.nodes).2.input
    ∧ (dlePass f st).includes = st.includes ++ (f st.nodes).2.includes
    ∧ (dlePass f st).efuncs.take st.efuncs.length =
        st.efuncs.map fun n => (f n).1 := by
  refine ⟨rfl, rfl, rfl, rfl, rfl, ?_⟩
  show ((st.efuncs.map fun n => (f n).1) ++ (f st.nodes).2.efuncs).take _ = _
  rw [List.take_append_of_le_length (by rw [List.length_map])]
  rw [List.take_of_length_le (by rw [List.length_map])]

/-! ## The vectorization annotator (`AdvancedRewriter._simdize`)

`rewriters.py` lines 300-328: the `aligned` list comprehension calls
`get_simd_items(j.dtype)` for every tensor symbol in the loop; a single
`KeyError` aborts the whole comprehension, so `aligned` is reset to `[]`
and the generic `simd-for` hint is used. -/

/-- A symbol visited by `FindSymbols('symbolics')` inside the loop:
whether it is a tensor, the SIMD item count known for its dtype (`none`
models the `KeyError` of `get_simd_items`), and its trailing-axis
extent. -/
structure SymA where
  isTensor : Bool
  simdItems : Option Nat
  shapeLast : Nat
deriving DecidableEq, Repr

/-- The comprehension `[j for j in handle if j.is_Tensor and
j.shape[-1] % get_simd_items(j.dtype) == 0]` with `KeyError` propagation:
evaluation aborts at the first tensor whose dtype width is unknown. -/
def alignedOf : List SymA → Except Unit (List SymA)
  | [] => Except.ok []
  | j :: rest =>
      if j.isTensor then
        match j.simdItems with
        | none => Except.error ()
        | some w => do
            let r ← alignedOf rest
            if j.shapeLast % w == 0 then Except.ok (j :: r) else Except.ok r
      else alignedOf rest

/-- `try: aligned = [...] except KeyError: aligned = []`. -/
def alignedArrays (syms : List SymA) : List SymA :=
  match alignedOf syms with
  | Except.error _ => []
  | Except.ok l => l

/-- `if aligned: simd-for-aligned(...) else: simd-for`. -/
def simdPragma (syms : List SymA) : String :=
  if alignedArrays syms = [] then "simd-for" else "simd-for-aligned"

lemma alignedOf_eq_error (syms : List SymA)
    (h : ∃ j ∈ syms, j.isTensor = true ∧ j.simdItems = none) :
    alignedOf syms = Except.error () := by
  induction syms with
  | nil => simp at h
  | cons j rest ih =>
      obtain ⟨x, hx, hxt, hxw⟩ := h
      rcases List.mem_cons.mp hx with rfl | hmem
      · simp [alignedOf, hxt, hxw]
      · by_cases hjt : j.isTensor = true
        · cases hw : j.simdItems with
          | none => simp [alignedOf, hjt, hw]
          | some w =>
              have he := ih ⟨x, hmem, hxt, hxw⟩
              simp only [alignedOf, hjt, if_true, hw, he]
              rfl
        · simp [alignedOf, hjt, ih ⟨x, hmem, hxt, hxw⟩]

/-- C10. If the vector-width lookup fails for any one tensor symbol
visited inside a VECTORIZABLE loop, the aligned set for the entire loop is
reset to empty and the generic `simd-for` hint is attached instead of
`simd-for-aligned` — even when other tensors in the loop have trailing
extents that are exact multiples of their known vector width. -/
theorem simdize_keyerror_resets_aligned (syms : List SymA)
    (h : ∃ j ∈ syms, j.isTensor = true ∧ j.simdItems = none) :
    alignedArrays syms = [] ∧ simdPragma syms = "simd-for" := by
  have he := alignedOf_eq_error syms h
  constructor
  · unfold alignedArrays
    rw [he]
  · unfold simdPragma alignedArrays
    rw [he]
    rfl

theorem simdize_keyerror_resets_aligned_witness :
    alignedArrays [⟨true, some 8, 64⟩, ⟨true, none, 64⟩] = []
    ∧ simdPragma [⟨true, some 8, 64⟩, ⟨true, none, 64⟩] = "simd-for" :=
  simdize_keyerror_resets_aligned [⟨true, some 8, 64⟩, ⟨true, none, 64⟩]
    ⟨⟨true, none, 64⟩, by decide, rfl, rfl⟩

end Devito
